import Mathlib

/-!
Shallow embedding of `src/langchain5Q.py`: a command-line chat assistant that
persists conversation history and extracted user facts, assembles a prompt from
them, and calls a completion endpoint.

Text is modelled as `List Char` (ASCII, as in the program's inputs).  Python
string operations used by the source (`in`, `str.split(sep)`, `str.split()`,
`str.strip()`, `str.lower()`, `str.capitalize()`, negative indexing `[-1]`,
indexing `[0]`) are modelled by executable functions below.  Database tables
are modelled as lists of rows in primary-key (insertion) order; the server
timestamps are monotone in insertion order, so `ORDER BY created_at` is row
order.  The completion endpoint is a parameter.  Python exceptions
(`IndexError` from `[0]` on an empty list) are modelled with `Option`.
-/

abbrev Str := List Char

/-- Model of Python `needle in haystack` restricted to a match at the start:
`haystack.startswith(needle)`. -/
def leadsWith : Str → Str → Bool
  | [], _ => true
  | _ :: _, [] => false
  | a :: as, b :: bs => a == b && leadsWith as bs

/-- Model of Python substring containment `needle in haystack`. -/
def occurs (p : Str) : Str → Bool
  | [] => p.isEmpty
  | c :: cs => leadsWith p (c :: cs) || occurs p cs

/-- Prepend a character to the first fragment of a split result. -/
def consHead (c : Char) : List Str → List Str
  | [] => [[c]]
  | t :: ts => (c :: t) :: ts

/-- Fuel-indexed worker for `pySplit`; fuel `s.length` always suffices. -/
def pySplitF (p : Str) : Nat → Str → List Str
  | _, [] => [[]]
  | 0, s => [s]
  | fuel + 1, c :: cs =>
    if leadsWith p (c :: cs) then
      [] :: pySplitF p fuel (cs.drop (p.length - 1))
    else
      consHead c (pySplitF p fuel cs)

/-- Model of Python `s.split(sep)` for a nonempty separator `p`: the list of
fragments between the non-overlapping occurrences of `p`, found left to
right. -/
def pySplit (p s : Str) : List Str := pySplitF p s.length s

/-- Model of Python `l[-1]` on the (never empty) result of `split`. -/
def pyLast : List Str → Str
  | [] => []
  | [t] => t
  | _ :: t :: ts => pyLast (t :: ts)

/-- Model of Python `l[0]` on the (never empty) result of `split`. -/
def pyFirst : List Str → Str
  | [] => []
  | t :: _ => t

/-- Model of Python `s.strip()`. -/
def pyStrip (s : Str) : Str :=
  ((s.dropWhile Char.isWhitespace).reverse.dropWhile Char.isWhitespace).reverse

/-- Model of Python `s.lower()` (ASCII). -/
def pyLower (s : Str) : Str := s.map Char.toLower

/-- Model of Python `s.capitalize()`: first character upper-cased, the rest
lower-cased. -/
def pyCapitalize : Str → Str
  | [] => []
  | c :: cs => c.toUpper :: cs.map Char.toLower

/-- Model of Python `s.split()[0]` applied to an already-stripped string `t`:
`none` models the `IndexError` raised when `t` has no token. -/
def firstToken (t : Str) : Option Str :=
  if t.isEmpty then none else some (t.takeWhile (fun c => !c.isWhitespace))

/-! ## Data model: the two tables -/

/-- A row of the `conversations` table (`id`/`created_at` order is list
order; the timestamp column itself carries no further information). -/
structure ConvRow where
  session_id : Str
  role : Str
  content : Str
deriving DecidableEq

/-- A row of the `user_facts` table, in `id` (insertion) order; `updated_at`
is not modelled (no claim mentions it). -/
structure FactRow where
  session_id : Str
  fact_key : Str
  fact_value : Str
deriving DecidableEq

/-- The database state: both tables, rows in insertion order. -/
structure DB where
  conversations : List ConvRow
  user_facts : List FactRow
deriving DecidableEq

/-! ## Conversation log operations (`save_message`, `get_last_messages`) -/

/-- `save_message`: INSERT one row into `conversations`; the server-assigned
timestamp places it last in chronological order. -/
def save_message (session_id role content : Str) (log : List ConvRow) :
    List ConvRow :=
  log ++ [⟨session_id, role, content⟩]

/-- `get_last_messages`: SELECT role, content WHERE session_id = :session_id
ORDER BY created_at DESC LIMIT :limit, then the Python comprehension over
`reversed(rows)` returns (role, content) pairs oldest-first. -/
def get_last_messages (session_id : Str) (limit : Nat) (log : List ConvRow) :
    List (Str × Str) :=
  let rows := ((log.filter (fun r => r.session_id == session_id)).reverse).take limit
  rows.reverse.map (fun r => (r.role, r.content))

/-! ## Fact store operations (`upsert_user_fact`, `get_user_facts`) -/

/-- `upsert_user_fact`: SELECT the first row matching (session_id, key); if
found, UPDATE its value in place (`WHERE id = existing id`), else INSERT a
new row at the end. -/
def upsert_user_fact (session_id key value : Str) :
    List FactRow → List FactRow
  | [] => [⟨session_id, key, value⟩]
  | r :: rs =>
    if r.session_id == session_id && r.fact_key == key then
      ⟨r.session_id, r.fact_key, value⟩ :: rs
    else
      r :: upsert_user_fact session_id key value rs

/-- One step of building a Python dict: `d[k] = v` keeps the position of an
existing key and appends a new key. -/
def dictInsert (d : List (Str × Str)) (k v : Str) : List (Str × Str) :=
  if d.any (fun p => p.1 == k) then
    d.map (fun p => if p.1 == k then (k, v) else p)
  else
    d ++ [(k, v)]

/-- Model of the Python dict comprehension `{row[0]: row[1] for row in rows}`:
later rows overwrite earlier values; key order is first-occurrence order. -/
def pyDictOf (l : List (Str × Str)) : List (Str × Str) :=
  l.foldl (fun d kv => dictInsert d kv.1 kv.2) []

/-- `get_user_facts`: SELECT fact_key, fact_value WHERE session_id =
:session_id (row order), collected into a dict. -/
def get_user_facts (session_id : Str) (st : List FactRow) :
    List (Str × Str) :=
  pyDictOf ((st.filter (fun r => r.session_id == session_id)).map
    (fun r => (r.fact_key, r.fact_value)))

/-- The value the code's own lookup (`SELECT ... fetchone`) sees for a
(session, key) pair: the first matching row's value. -/
def factValue (st : List FactRow) (session_id key : Str) : Option Str :=
  (st.find? (fun r => r.session_id == session_id && r.fact_key == key)).map
    (·.fact_value)

/-! ## Fact extraction (`extract_and_store_facts`) -/

/-- The trigger phrase of line 100. -/
def namePhrase : Str := "my name is".toList

/-- The trigger phrase of line 103. -/
def professionPhrase : Str := "i am a".toList

/-- The trigger phrase of line 106. -/
def livePhrase : Str := "i live in".toList

/-- The trigger phrase of line 109. -/
def movedPhrase : Str := "moved to".toList

/-- Line 101: `user_input.split("my name is")[-1].strip().split()[0]`;
`none` models the `IndexError` when no token follows. -/
def nameValue (user_input : Str) : Option Str :=
  firstToken (pyStrip (pyLast (pySplit namePhrase user_input)))

/-- Line 104: `user_input.split("i am a")[-1].strip().split('.')[0]`. -/
def professionValue (user_input : Str) : Str :=
  pyFirst (pySplit ['.'] (pyStrip (pyLast (pySplit professionPhrase user_input))))

/-- Line 107: `user_input.split("i live in")[-1].strip().split('.')[0]`. -/
def liveInValue (user_input : Str) : Str :=
  pyFirst (pySplit ['.'] (pyStrip (pyLast (pySplit livePhrase user_input))))

/-- Line 110: `user_input.split("moved to")[-1].strip().split('.')[0]`. -/
def movedToValue (user_input : Str) : Str :=
  pyFirst (pySplit ['.'] (pyStrip (pyLast (pySplit movedPhrase user_input))))

/-- `extract_and_store_facts`: the four trigger checks in fixed order, each
matching on the lower-cased input and deriving its value from the
original-case input.  `none` models the `IndexError` that the name branch
raises when `split()[0]` is applied to an empty token list. -/
def extract_and_store_facts (session_id user_input : Str)
    (st : List FactRow) : Option (List FactRow) :=
  let lower := pyLower user_input
  let st1? : Option (List FactRow) :=
    if occurs namePhrase lower then
      match nameValue user_input with
      | none => none
      | some name => some (upsert_user_fact session_id "name".toList name st)
    else some st
  match st1? with
  | none => none
  | some st1 =>
    let st2 :=
      if occurs professionPhrase lower then
        upsert_user_fact session_id "profession".toList (professionValue user_input) st1
      else st1
    let st3 :=
      if occurs livePhrase lower then
        upsert_user_fact session_id "location".toList (liveInValue user_input) st2
      else st2
    some (if occurs movedPhrase lower then
      upsert_user_fact session_id "location".toList (movedToValue user_input) st3
    else st3)

/-! ## Chat orchestration (`chat_with_memory`) -/

/-- The fixed session identifier (line 117). -/
def SESSION_ID : Str := "default_session".toList

/-- The three message constructors of the prompt list
(`SystemMessage`, `HumanMessage`, `AIMessage`). -/
inductive ChatMsg where
  | system (content : Str)
  | human (content : Str)
  | ai (content : Str)
deriving DecidableEq

/-- Lines 125–126: the system prompt built from the facts dict, or the fixed
fallback when no facts exist. -/
def factsPrompt (facts : List (Str × Str)) : Str :=
  if facts.isEmpty then "No known facts about the user.".toList
  else
    "User facts: ".toList ++
      List.intercalate ", ".toList
        (facts.map (fun kv => pyCapitalize kv.1 ++ " = ".toList ++ kv.2))

/-- Lines 124–137: the ordered message list assembled from the current
database state: system prompt, history mapped by role, final user message. -/
def assemble_messages (db : DB) (user_input : Str) : List ChatMsg :=
  let facts := get_user_facts SESSION_ID db.user_facts
  let system_prompt := factsPrompt facts
  let history := get_last_messages SESSION_ID 5 db.conversations
  (ChatMsg.system system_prompt ::
    history.map (fun m =>
      if m.1 == "user".toList then ChatMsg.human m.2 else ChatMsg.ai m.2)) ++
    [ChatMsg.human user_input]

/-- A turn can abort with the extractor's `IndexError` or with an endpoint
error; either propagates uncaught to the caller. -/
inductive TurnError where
  | indexError
  | endpointError (e : Str)
deriving DecidableEq

/-- `chat_with_memory`: one user turn.  The endpoint is a parameter; the pair
returned is the database state when the call finishes (normally or by a
propagated error) together with the outcome. -/
def chat_with_memory (endpoint : List ChatMsg → Except Str Str) (db : DB)
    (user_input : Str) : DB × Except TurnError Str :=
  match extract_and_store_facts SESSION_ID user_input db.user_facts with
  | none => (db, .error .indexError)
  | some facts1 =>
    let db1 : DB :=
      ⟨save_message SESSION_ID "user".toList user_input db.conversations, facts1⟩
    let messages := assemble_messages db1 user_input
    match endpoint messages with
    | .error e => (db1, .error (.endpointError e))
    | .ok reply =>
      (⟨save_message SESSION_ID "assistant".toList reply db1.conversations,
        db1.user_facts⟩, .ok reply)

/-! ## Specification-side characterizations -/

/-- `p` has no nonempty proper border: no nonempty proper suffix of `p` is
also one of its own leading fragments.  All trigger phrases satisfy this, so
the left-to-right non-overlapping matching of `split` finds every
occurrence. -/
def Borderless (p : Str) : Prop :=
  ∀ k, k < p.length → 0 < k → p.take k ≠ p.drop (p.length - k)

instance (p : Str) : Decidable (Borderless p) := by
  unfold Borderless; infer_instance

/-- `v` is the text after the last occurrence of `p` in `s`: some occurrence
of `p` is followed exactly by `v`, and no occurrence of `p` starts later. -/
def isAfterLastOcc (p s v : Str) : Prop :=
  (∃ u, s = u ++ p ++ v) ∧ occurs p (List.drop 1 (p ++ v)) = false

/-- The fact-table invariant: at most one row per (session, key) pair. -/
def FactInv (st : List FactRow) : Prop :=
  (st.map (fun r => (r.session_id, r.fact_key))).Nodup

instance (st : List FactRow) : Decidable (FactInv st) := by
  unfold FactInv; infer_instance

/-! ## Lemmas: `leadsWith` and `occurs` -/

theorem leadsWith_nil (p : Str) : leadsWith p [] = p.isEmpty := by
  cases p <;> rfl

theorem leadsWith_iff (p : Str) : ∀ s : Str, leadsWith p s = true ↔ ∃ r, s = p ++ r := by
  induction p with
  | nil => intro s; simp [leadsWith]
  | cons a as ih =>
    intro s
    cases s with
    | nil => simp [leadsWith]
    | cons b bs =>
      simp only [leadsWith, Bool.and_eq_true, beq_iff_eq, ih bs, List.cons_append]
      constructor
      · rintro ⟨rfl, r, rfl⟩; exact ⟨r, rfl⟩
      · rintro ⟨r, h⟩
        injection h with h1 h2
        exact ⟨h1.symm, r, h2⟩

theorem occurs_nil (p : Str) : occurs p [] = p.isEmpty := rfl

theorem occurs_cons (p : Str) (c : Char) (cs : Str) :
    occurs p (c :: cs) = (leadsWith p (c :: cs) || occurs p cs) := rfl

theorem occurs_of_leadsWith {p s : Str} (h : leadsWith p s = true) :
    occurs p s = true := by
  cases s with
  | nil => rw [leadsWith_nil] at h; rw [occurs_nil]; exact h
  | cons c cs => rw [occurs_cons, h, Bool.true_or]

theorem occurs_append_right {p y : Str} (h : occurs p y = true) (x : Str) :
    occurs p (x ++ y) = true := by
  induction x with
  | nil => exact h
  | cons c cx ih => rw [List.cons_append, occurs_cons, ih, Bool.or_true]

theorem occurs_append_cases {p y : Str} :
    ∀ x : Str, occurs p (x ++ y) = true →
      (∃ k, k < x.length ∧ leadsWith p (x.drop k ++ y) = true) ∨ occurs p y = true := by
  intro x
  induction x with
  | nil => intro h; exact Or.inr h
  | cons c cx ih =>
    intro h
    rw [List.cons_append, occurs_cons, Bool.or_eq_true] at h
    rcases h with h | h
    · exact Or.inl ⟨0, by simp, by simpa using h⟩
    · rcases ih h with ⟨k, hk, hl⟩ | h'
      · exact Or.inl ⟨k + 1, by simpa using hk, by simpa using hl⟩
      · exact Or.inr h'

/-! ## Lemmas: `pySplit` -/

theorem pySplitF_nil (p : Str) (f : Nat) : pySplitF p f [] = [[]] := by
  cases f <;> rfl

theorem consHead_ne_nil (c : Char) (l : List Str) : consHead c l ≠ [] := by
  cases l <;> simp [consHead]

theorem pySplitF_fuel (p : Str) :
    ∀ f g (s : Str), s.length ≤ f → s.length ≤ g →
      pySplitF p f s = pySplitF p g s := by
  intro f
  induction f with
  | zero =>
    intro g s hf _
    have : s = [] := List.length_eq_zero.mp (Nat.le_zero.mp hf)
    subst this
    rw [pySplitF_nil, pySplitF_nil]
  | succ f ih =>
    intro g s hf hg
    cases s with
    | nil => rw [pySplitF_nil, pySplitF_nil]
    | cons c cs =>
      cases g with
      | zero => simp at hg
      | succ g =>
        have hcs : cs.length ≤ f := by simpa using hf
        have hcs' : cs.length ≤ g := by simpa using hg
        show (if leadsWith p (c :: cs) then
            [] :: pySplitF p f (cs.drop (p.length - 1))
          else consHead c (pySplitF p f cs)) =
          (if leadsWith p (c :: cs) then
            [] :: pySplitF p g (cs.drop (p.length - 1))
          else consHead c (pySplitF p g cs))
        by_cases h : leadsWith p (c :: cs) = true
        · rw [h]
          simp only [if_true]
          have hd : (cs.drop (p.length - 1)).length ≤ f :=
            le_trans (by simp) hcs
          have hd' : (cs.drop (p.length - 1)).length ≤ g :=
            le_trans (by simp) hcs'
          rw [ih _ _ hd hd']
        · rw [Bool.not_eq_true] at h
          rw [h]
          simp only [Bool.false_eq_true, if_false]
          rw [ih _ _ hcs hcs']

theorem pySplit_nil (p : Str) : pySplit p [] = [[]] := rfl

theorem pySplit_cons (p : Str) (c : Char) (cs : Str) :
    pySplit p (c :: cs) =
      if leadsWith p (c :: cs) then
        [] :: pySplit p (cs.drop (p.length - 1))
      else consHead c (pySplit p cs) := by
  show pySplitF p (cs.length + 1) (c :: cs) = _
  show (if leadsWith p (c :: cs) then
      [] :: pySplitF p cs.length (cs.drop (p.length - 1))
    else consHead c (pySplitF p cs.length cs)) = _
  by_cases h : leadsWith p (c :: cs) = true
  · rw [h]
    simp only [if_true]
    rw [pySplitF_fuel p cs.length (cs.drop (p.length - 1)).length _
      (by simp) le_rfl]
    rfl
  · rw [Bool.not_eq_true] at h
    rw [h]
    simp only [Bool.false_eq_true, if_false]
    rfl

theorem pySplit_ne_nil (p s : Str) : pySplit p s ≠ [] := by
  cases s with
  | nil => rw [pySplit_nil]; simp
  | cons c cs =>
    rw [pySplit_cons]
    by_cases h : leadsWith p (c :: cs) = true
    · rw [h]; simp
    · rw [Bool.not_eq_true] at h
      rw [h]
      simp only [Bool.false_eq_true, if_false]
      exact consHead_ne_nil c _

theorem pySplit_of_no_occ {p : Str} :
    ∀ s : Str, occurs p s = false → pySplit p s = [s] := by
  intro s
  induction s with
  | nil => intro _; rw [pySplit_nil]
  | cons c cs ih =>
    intro h
    rw [occurs_cons, Bool.or_eq_false_iff] at h
    rw [pySplit_cons, h.1]
    simp only [Bool.false_eq_true, if_false]
    rw [ih h.2]
    rfl

theorem two_le_pySplit_length {p : Str} (hp : p ≠ []) :
    ∀ s : Str, occurs p s = true → 2 ≤ (pySplit p s).length := by
  intro s
  induction s with
  | nil =>
    intro h
    rw [occurs_nil, List.isEmpty_iff] at h
    exact absurd h hp
  | cons c cs ih =>
    intro h
    rw [pySplit_cons]
    by_cases hl : leadsWith p (c :: cs) = true
    · rw [hl]
      simp only [if_true, List.length_cons]
      have := pySplit_ne_nil p (cs.drop (p.length - 1))
      have : 1 ≤ (pySplit p (cs.drop (p.length - 1))).length :=
        Nat.one_le_iff_ne_zero.mpr (by simpa [List.length_eq_zero] using this)
      omega
    · rw [Bool.not_eq_true] at hl
      rw [hl]
      simp only [Bool.false_eq_true, if_false]
      rw [occurs_cons, hl, Bool.false_or] at h
      have h2 := ih h
      rcases hx : pySplit p cs with _ | ⟨t, ts⟩
      · exact absurd hx (pySplit_ne_nil p cs)
      · rw [hx] at h2
        simpa [consHead] using h2

theorem pyLast_cons_of_ne_nil (a : Str) {l : List Str} (h : l ≠ []) :
    pyLast (a :: l) = pyLast l := by
  cases l with
  | nil => exact absurd rfl h
  | cons t ts => rfl

theorem pyLast_consHead_of_two (c : Char) {l : List Str} (h : 2 ≤ l.length) :
    pyLast (consHead c l) = pyLast l := by
  cases l with
  | nil => simp at h
  | cons t ts =>
    cases ts with
    | nil => simp at h
    | cons u us => rfl

/-- The last fragment of a split contains no occurrence of the separator. -/
theorem occurs_pyLast_pySplit {p : Str} (hp : p ≠ []) :
    ∀ n (s : Str), s.length ≤ n → occurs p (pyLast (pySplit p s)) = false := by
  intro n
  induction n with
  | zero =>
    intro s hs
    have : s = [] := List.length_eq_zero.mp (Nat.le_zero.mp hs)
    subst this
    rw [pySplit_nil]
    show occurs p [] = false
    rw [occurs_nil]
    simpa [List.isEmpty_iff] using hp
  | succ n ih =>
    intro s hs
    cases s with
    | nil =>
      rw [pySplit_nil]
      show occurs p [] = false
      rw [occurs_nil]
      simpa [List.isEmpty_iff] using hp
    | cons c cs =>
      have hcs : cs.length ≤ n := by simpa using hs
      rw [pySplit_cons]
      by_cases hl : leadsWith p (c :: cs) = true
      · rw [hl]
        simp only [if_true]
        rw [pyLast_cons_of_ne_nil _ (pySplit_ne_nil p _)]
        exact ih (cs.drop (p.length - 1))
          (le_trans (by simp) hcs)
      · rw [Bool.not_eq_true] at hl
        rw [hl]
        simp only [Bool.false_eq_true, if_false]
        by_cases ho : occurs p cs = true
        · rw [pyLast_consHead_of_two c (two_le_pySplit_length hp cs ho)]
          exact ih cs hcs
        · rw [Bool.not_eq_true] at ho
          rw [pySplit_of_no_occ cs ho]
          show occurs p (pyLast [c :: cs]) = false
          show occurs p (c :: cs) = false
          rw [occurs_cons, hl, ho]
          rfl

/-- If the separator occurs, the input decomposes as
`prefix-part ++ separator ++ last fragment`. -/
theorem pySplit_decomp {p : Str} (hp : p ≠ []) :
    ∀ n (s : Str), s.length ≤ n → occurs p s = true →
      ∃ u, s = u ++ p ++ pyLast (pySplit p s) := by
  intro n
  induction n with
  | zero =>
    intro s hs h
    have : s = [] := List.length_eq_zero.mp (Nat.le_zero.mp hs)
    subst this
    rw [occurs_nil, List.isEmpty_iff] at h
    exact absurd h hp
  | succ n ih =>
    intro s hs h
    cases s with
    | nil =>
      rw [occurs_nil, List.isEmpty_iff] at h
      exact absurd h hp
    | cons c cs =>
      have hcs : cs.length ≤ n := by simpa using hs
      rw [pySplit_cons]
      by_cases hl : leadsWith p (c :: cs) = true
      · rw [hl]
        simp only [if_true]
        rw [pyLast_cons_of_ne_nil _ (pySplit_ne_nil p _)]
        obtain ⟨r, hr⟩ := (leadsWith_iff p (c :: cs)).mp hl
        have hrest : cs.drop (p.length - 1) = r := by
          have h1 : (c :: cs).drop p.length = r := by
            rw [hr, List.drop_left]
          rcases p with _ | ⟨a, as⟩
          · exact absurd rfl hp
          · simpa using h1
        by_cases ho : occurs p r = true
        · obtain ⟨u, hu⟩ := ih r (by rw [← hrest]; exact le_trans (by simp) hcs) ho
          rw [hrest]
          refine ⟨p ++ u, ?_⟩
          rw [hr]
          conv_lhs => rw [hu]
          simp
        · rw [Bool.not_eq_true] at ho
          rw [hrest, pySplit_of_no_occ r ho]
          refine ⟨[], ?_⟩
          rw [hr]
          rfl
      · rw [Bool.not_eq_true] at hl
        rw [hl]
        simp only [Bool.false_eq_true, if_false]
        rw [occurs_cons, hl, Bool.false_or] at h
        rw [pyLast_consHead_of_two c (two_le_pySplit_length hp cs h)]
        obtain ⟨u, hu⟩ := ih cs hcs h
        refine ⟨c :: u, ?_⟩
        conv_lhs => rw [hu]
        simp

/-- For a borderless separator, an occurrence inside `p.drop 1 ++ t` must lie
entirely inside `t`. -/
theorem occurs_of_occurs_dropOne_append {p : Str} (_hp : p ≠ [])
    (hb : Borderless p) {t : Str}
    (h : occurs p (p.drop 1 ++ t) = true) : occurs p t = true := by
  rcases occurs_append_cases (p.drop 1) h with ⟨k, hk, hl⟩ | h'
  · exfalso
    rw [List.drop_drop, Nat.add_comm] at hl
    have hk1 : k + 1 < p.length := by
      have : (p.drop 1).length = p.length - 1 := by simp
      omega
    obtain ⟨r, hr⟩ := (leadsWith_iff p _).mp hl
    set m := p.length - (k + 1) with hm
    have hml : (p.drop (k + 1)).length = m := by simp [hm]
    have h1 : (p.drop (k + 1) ++ t).take m = p.drop (k + 1) := by
      rw [← hml, List.take_left]
    have h2 : (p ++ r).take m = p.take m := by
      refine List.take_append_of_le_length ?_
      omega
    have h3 : p.take m = p.drop (k + 1) := by
      rw [← h2, ← hr, h1]
    have h4 : p.length - m = k + 1 := by omega
    exact hb m (by omega) (by omega) (by rw [h3, h4])
  · exact h'

/-- The last fragment of `split` is the text after the last occurrence of a
borderless separator. -/
theorem isAfterLastOcc_pyLast_pySplit {p : Str} (hp : p ≠ [])
    (hb : Borderless p) {s : Str} (h : occurs p s = true) :
    isAfterLastOcc p s (pyLast (pySplit p s)) := by
  constructor
  · exact pySplit_decomp hp s.length s le_rfl h
  · by_contra hc
    rw [Bool.not_eq_false] at hc
    have hd : List.drop 1 (p ++ pyLast (pySplit p s)) =
        p.drop 1 ++ pyLast (pySplit p s) := by
      rcases p with _ | ⟨a, as⟩
      · exact absurd rfl hp
      · rfl
    rw [hd] at hc
    have := occurs_of_occurs_dropOne_append hp hb hc
    rw [occurs_pyLast_pySplit hp s.length s le_rfl] at this
    exact absurd this (by simp)

/-- Helper for uniqueness: a strictly later decomposition point contradicts
the no-later-occurrence condition of the earlier one. -/
theorem isAfterLastOcc_lt_aux {p : Str} (hp : p ≠ []) {s v1 v2 u1 u2 : Str}
    (e1 : s = u1 ++ p ++ v1) (g1 : occurs p (List.drop 1 (p ++ v1)) = false)
    (e2 : s = u2 ++ p ++ v2) (hlt : u1.length < u2.length) : False := by
  have e : u1 ++ (p ++ v1) = u2 ++ (p ++ v2) := by
    rw [← List.append_assoc, ← List.append_assoc, ← e1, ← e2]
  have hu1 : u1 = u2.take u1.length := by
    have h' := congrArg (List.take u1.length) e
    rw [List.take_left] at h'
    rw [List.take_append_of_le_length (le_of_lt hlt)] at h'
    exact h'
  set w := u2.drop u1.length with hw
  have hw_ne : w ≠ [] := by
    simpa [hw, List.length_drop] using (by omega : 0 < u2.length - u1.length)
  have hu2 : u2 = u1 ++ w := by rw [hu1, hw, List.take_append_drop]
  have e' : p ++ v1 = w ++ (p ++ v2) := by
    rw [hu2, List.append_assoc] at e
    exact List.append_cancel_left e
  rcases p with _ | ⟨a, as⟩
  · exact absurd rfl hp
  · rcases w with _ | ⟨b, bs⟩
    · exact absurd rfl hw_ne
    · have e'' : as ++ v1 = bs ++ ((a :: as) ++ v2) := by
        have h' := congrArg (List.drop 1) e'
        simpa using h'
      have hocc : occurs (a :: as) (List.drop 1 ((a :: as) ++ v1)) = true := by
        have hstart : occurs (a :: as) ((a :: as) ++ v2) = true :=
          occurs_of_leadsWith ((leadsWith_iff _ _).mpr ⟨v2, rfl⟩)
        show occurs (a :: as) (as ++ v1) = true
        rw [e'']
        exact occurs_append_right hstart bs
      rw [g1] at hocc
      exact absurd hocc (by simp)

/-- There is only one "text after the last occurrence". -/
theorem isAfterLastOcc_unique {p : Str} (hp : p ≠ []) {s v1 v2 : Str}
    (h1 : isAfterLastOcc p s v1) (h2 : isAfterLastOcc p s v2) : v1 = v2 := by
  obtain ⟨⟨u1, e1⟩, g1⟩ := h1
  obtain ⟨⟨u2, e2⟩, g2⟩ := h2
  rcases Nat.lt_trichotomy u1.length u2.length with hlt | heq | hgt
  · exact absurd (isAfterLastOcc_lt_aux hp e1 g1 e2 hlt) not_false
  · have e : u1 ++ (p ++ v1) = u2 ++ (p ++ v2) := by
      rw [← List.append_assoc, ← List.append_assoc, ← e1, ← e2]
    obtain ⟨_, h⟩ := List.append_inj e heq
    exact List.append_cancel_left h
  · exact absurd (isAfterLastOcc_lt_aux hp e2 g2 e1 hgt) not_false

/-! ## Lemmas: fact store -/

theorem factValue_upsert_same (sess k v : Str) :
    ∀ st : List FactRow, factValue (upsert_user_fact sess k v st) sess k = some v := by
  intro st
  induction st with
  | nil => simp [upsert_user_fact, factValue, List.find?]
  | cons r rs ih =>
    by_cases h : (r.session_id == sess && r.fact_key == k) = true
    · rw [show upsert_user_fact sess k v (r :: rs) =
        ⟨r.session_id, r.fact_key, v⟩ :: rs by simp [upsert_user_fact, h]]
      simp only [factValue, List.find?]
      rw [show ((⟨r.session_id, r.fact_key, v⟩ : FactRow).session_id == sess &&
        (⟨r.session_id, r.fact_key, v⟩ : FactRow).fact_key == k) = true from h]
      rfl
    · rw [show upsert_user_fact sess k v (r :: rs) =
        r :: upsert_user_fact sess k v rs by simp [upsert_user_fact, h]]
      simp only [factValue, List.find?] at ih ⊢
      rw [Bool.not_eq_true] at h
      rw [h]
      exact ih

theorem factValue_upsert_ne (sess k k' v : Str) (hne : k' ≠ k) :
    ∀ st : List FactRow,
      factValue (upsert_user_fact sess k' v st) sess k = factValue st sess k := by
  intro st
  induction st with
  | nil =>
    simp only [upsert_user_fact, factValue, List.find?]
    rw [show (((⟨sess, k', v⟩ : FactRow).session_id == sess &&
      (⟨sess, k', v⟩ : FactRow).fact_key == k)) = false by
        simp [beq_iff_eq, hne]]
  | cons r rs ih =>
    by_cases h : (r.session_id == sess && r.fact_key == k') = true
    · rw [show upsert_user_fact sess k' v (r :: rs) =
        ⟨r.session_id, r.fact_key, v⟩ :: rs by simp [upsert_user_fact, h]]
      have hrk : r.fact_key = k' := by
        have := (Bool.and_eq_true _ _).mp h
        exact beq_iff_eq.mp this.2
      simp only [factValue, List.find?]
      rw [show ((⟨r.session_id, r.fact_key, v⟩ : FactRow).session_id == sess &&
        (⟨r.session_id, r.fact_key, v⟩ : FactRow).fact_key == k) = false by
          simp [hrk, beq_iff_eq, hne]]
    · rw [show upsert_user_fact sess k' v (r :: rs) =
        r :: upsert_user_fact sess k' v rs by simp [upsert_user_fact, h]]
      by_cases h2 : (r.session_id == sess && r.fact_key == k) = true
      · simp only [factValue, List.find?, h2]
      · rw [Bool.not_eq_true] at h2
        simp only [factValue, List.find?, h2]
        exact ih

theorem mapPair_upsert (sess k v : Str) :
    ∀ st : List FactRow,
      (upsert_user_fact sess k v st).map (fun r => (r.session_id, r.fact_key)) =
        st.map (fun r => (r.session_id, r.fact_key)) ++
          (if st.any (fun r => r.session_id == sess && r.fact_key == k) then []
           else [(sess, k)]) := by
  intro st
  induction st with
  | nil => simp [upsert_user_fact]
  | cons r rs ih =>
    by_cases h : (r.session_id == sess && r.fact_key == k) = true
    · rw [show upsert_user_fact sess k v (r :: rs) =
        ⟨r.session_id, r.fact_key, v⟩ :: rs by simp [upsert_user_fact, h]]
      simp [List.any_cons, h]
    · rw [show upsert_user_fact sess k v (r :: rs) =
        r :: upsert_user_fact sess k v rs by simp [upsert_user_fact, h]]
      rw [Bool.not_eq_true] at h
      simp [List.any_cons, h, ih]

theorem factInv_upsert {st : List FactRow} (hinv : FactInv st)
    (sess k v : Str) : FactInv (upsert_user_fact sess k v st) := by
  unfold FactInv
  rw [mapPair_upsert]
  by_cases h : st.any (fun r => r.session_id == sess && r.fact_key == k) = true
  · rw [h]
    simpa using hinv
  · rw [Bool.not_eq_true] at h
    rw [h]
    simp only [Bool.false_eq_true, if_false]
    rw [List.nodup_append]
    refine ⟨hinv, List.nodup_singleton _, ?_⟩
    intro x hx hx2
    rw [List.mem_singleton] at hx2
    subst hx2
    rw [List.mem_map] at hx
    obtain ⟨r, hr, hpair⟩ := hx
    rw [List.any_eq_false] at h
    have := h r hr
    have h1 : r.session_id = sess := congrArg Prod.fst hpair
    have h2 : r.fact_key = k := congrArg Prod.snd hpair
    simp [h1, h2] at this

theorem pyDictOf_foldl_of_nodup :
    ∀ (l d : List (Str × Str)),
      (((d ++ l).map Prod.fst).Nodup) →
      l.foldl (fun d' kv => dictInsert d' kv.1 kv.2) d = d ++ l := by
  intro l
  induction l with
  | nil => intro d _; simp
  | cons kv l' ih =>
    intro d hnd
    have hk_not : kv.1 ∉ d.map Prod.fst := by
      intro hmem
      rw [List.map_append] at hnd
      have := (List.nodup_append.mp hnd).2.2
      exact this hmem (by simp)
    have hany : d.any (fun p => p.1 == kv.1) = false := by
      rw [List.any_eq_false]
      intro p hp
      simp only [beq_iff_eq]
      intro hpe
      exact hk_not (by rw [← hpe]; exact List.mem_map_of_mem _ hp)
    rw [List.foldl_cons]
    rw [show dictInsert d kv.1 kv.2 = d ++ [kv] by
      simp [dictInsert, hany]]
    rw [ih (d ++ [kv]) (by simpa using hnd)]
    simp

theorem pyDictOf_of_nodup {l : List (Str × Str)}
    (h : (l.map Prod.fst).Nodup) : pyDictOf l = l := by
  have := pyDictOf_foldl_of_nodup l [] (by simpa using h)
  simpa [pyDictOf] using this

theorem filtered_keys_nodup {st : List FactRow} (hinv : FactInv st) (sess : Str) :
    (((st.filter (fun r => r.session_id == sess)).map
      (fun r => (r.fact_key, r.fact_value))).map Prod.fst).Nodup := by
  induction st with
  | nil => simp
  | cons r rs ih =>
    have hinv' : FactInv rs := by
      unfold FactInv at hinv ⊢
      simpa using (List.nodup_cons.mp hinv).2
    have hr_not := (List.nodup_cons.mp hinv).1
    by_cases h : (r.session_id == sess) = true
    · rw [@List.filter_cons_of_pos _ (fun r => r.session_id == sess) r rs h]
      simp only [List.map_cons, List.nodup_cons]
      refine ⟨?_, ih hinv'⟩
      intro hmem
      simp only [List.map_map, List.mem_map, Function.comp] at hmem
      obtain ⟨r', hr', hkey⟩ := hmem
      have hr'_mem := List.mem_of_mem_filter hr'
      have hr'_sess : r'.session_id = sess := by
        have := List.of_mem_filter hr'
        exact beq_iff_eq.mp this
      have hr_sess : r.session_id = sess := beq_iff_eq.mp h
      apply hr_not
      rw [List.mem_map]
      exact ⟨r', hr'_mem, by simp [hr'_sess, hr_sess, hkey]⟩
    · rw [@List.filter_cons_of_neg _ (fun r => r.session_id == sess) r rs h]
      exact ih hinv'

theorem lookup_filteredPairs (sess k : Str) :
    ∀ st : List FactRow,
      ((st.filter (fun r => r.session_id == sess)).map
        (fun r => (r.fact_key, r.fact_value))).lookup k = factValue st sess k := by
  intro st
  induction st with
  | nil => simp [factValue, List.lookup]
  | cons r rs ih =>
    by_cases hs : (r.session_id == sess) = true
    · rw [@List.filter_cons_of_pos _ (fun r => r.session_id == sess) r rs hs]
      simp only [List.map_cons, List.lookup, factValue, List.find?, hs,
        Bool.true_and]
      by_cases hk : (r.fact_key = k)
      · rw [show (k == r.fact_key) = true by simp [beq_iff_eq, hk.symm]]
        rw [show (r.fact_key == k) = true by simp [beq_iff_eq, hk]]
        rfl
      · rw [show (k == r.fact_key) = false by simp [beq_iff_eq]; exact fun h => hk h.symm]
        rw [show (r.fact_key == k) = false by simp [beq_iff_eq, hk]]
        exact ih
    · rw [@List.filter_cons_of_neg _ (fun r => r.session_id == sess) r rs hs]
      rw [Bool.not_eq_true] at hs
      simp only [factValue, List.find?, hs, Bool.false_and]
      exact ih

/-! ## Lemmas: conversation log -/

theorem revTakeRev_suffix {α : Type} (l : List α) (n : Nat) :
    (l.reverse.take n).reverse <:+ l :=
  ⟨(l.reverse.drop n).reverse, by
    rw [← List.reverse_append, List.take_append_drop, List.reverse_reverse]⟩

theorem get_last_messages_suffix (sess : Str) (n : Nat) (log : List ConvRow) :
    get_last_messages sess n log <:+
      (log.filter (fun r => r.session_id == sess)).map (fun r => (r.role, r.content)) := by
  unfold get_last_messages
  exact List.IsSuffix.map _ (revTakeRev_suffix _ n)

theorem get_last_messages_length (sess : Str) (n : Nat) (log : List ConvRow) :
    (get_last_messages sess n log).length =
      min n (log.filter (fun r => r.session_id == sess)).length := by
  unfold get_last_messages
  simp [List.length_take]

theorem get_last_messages_zero (sess : Str) (log : List ConvRow) :
    get_last_messages sess 0 log = [] := by
  unfold get_last_messages
  simp

theorem get_last_messages_all (sess : Str) (n : Nat) (log : List ConvRow)
    (h : (log.filter (fun r => r.session_id == sess)).length ≤ n) :
    get_last_messages sess n log =
      (log.filter (fun r => r.session_id == sess)).map (fun r => (r.role, r.content)) := by
  unfold get_last_messages
  rw [List.take_of_length_le (by simpa using h)]
  simp

/-! ## Lemmas: lower-casing preserves occurrences of lower-case phrases -/

theorem leadsWith_map (f : Char → Char) :
    ∀ p s : Str, leadsWith p s = true → leadsWith (p.map f) (s.map f) = true := by
  intro p
  induction p with
  | nil => intro s _; simp [leadsWith]
  | cons a as ih =>
    intro s h
    cases s with
    | nil => simp [leadsWith] at h
    | cons b bs =>
      simp only [leadsWith, Bool.and_eq_true, beq_iff_eq] at h
      simp only [List.map_cons, leadsWith, Bool.and_eq_true, beq_iff_eq]
      exact ⟨by rw [h.1], ih bs h.2⟩

theorem occurs_map (f : Char → Char) (p : Str) :
    ∀ s : Str, occurs p s = true → occurs (p.map f) (s.map f) = true := by
  intro s
  induction s with
  | nil =>
    intro h
    rw [occurs_nil, List.isEmpty_iff] at h
    subst h
    simp [occurs_nil]
  | cons c cs ih =>
    intro h
    rw [occurs_cons, Bool.or_eq_true] at h
    rw [List.map_cons]
    show (leadsWith (p.map f) (f c :: cs.map f) || occurs (p.map f) (cs.map f)) = true
    rcases h with h | h
    · have := leadsWith_map f p (c :: cs) h
      rw [List.map_cons] at this
      rw [this, Bool.true_or]
    · rw [ih h, Bool.or_true]

theorem occurs_pyLower_of_occurs {p s : Str} (hfix : pyLower p = p)
    (h : occurs p s = true) : occurs p (pyLower s) = true := by
  have := occurs_map Char.toLower p s h
  rwa [show p.map Char.toLower = p from hfix] at this

/-! ## Lemmas: fact extraction -/

theorem extract_no_trigger {sess s : Str} {st : List FactRow}
    (h1 : occurs namePhrase (pyLower s) = false)
    (h2 : occurs professionPhrase (pyLower s) = false)
    (h3 : occurs livePhrase (pyLower s) = false)
    (h4 : occurs movedPhrase (pyLower s) = false) :
    extract_and_store_facts sess s st = some st := by
  simp [extract_and_store_facts, h1, h2, h3, h4]

theorem extract_none_iff (sess s : Str) (st : List FactRow) :
    extract_and_store_facts sess s st = none ↔
      (occurs namePhrase (pyLower s) = true ∧ nameValue s = none) := by
  by_cases hn : occurs namePhrase (pyLower s) = true
  · rcases hnv : nameValue s with _ | nm
    · simp [extract_and_store_facts, hn, hnv]
    · simp [extract_and_store_facts, hn, hnv]
  · rw [Bool.not_eq_true] at hn
    simp [extract_and_store_facts, hn]

theorem location_after_extract {sess s : Str} {st st' : List FactRow}
    (hmoved : occurs movedPhrase (pyLower s) = true)
    (hex : extract_and_store_facts sess s st = some st') :
    factValue st' sess "location".toList = some (movedToValue s) := by
  by_cases hn : occurs namePhrase (pyLower s) = true
  · rcases hnv : nameValue s with _ | nm
    · simp [extract_and_store_facts, hn, hnv] at hex
    · simp only [extract_and_store_facts, hn, hnv, if_true, hmoved,
        Option.some.injEq] at hex
      rw [← hex]
      exact factValue_upsert_same sess _ _ _
  · rw [Bool.not_eq_true] at hn
    simp only [extract_and_store_facts, hn, Bool.false_eq_true, if_false,
      hmoved, if_true, Option.some.injEq] at hex
    rw [← hex]
    exact factValue_upsert_same sess _ _ _

theorem profession_after_extract {sess s : Str} {st st' : List FactRow}
    (hprof : occurs professionPhrase (pyLower s) = true)
    (hex : extract_and_store_facts sess s st = some st') :
    factValue st' sess "profession".toList = some (professionValue s) := by
  have hkey_ne : "location".toList ≠ "profession".toList := by decide
  have step (base : List FactRow) :
      factValue
        (if occurs movedPhrase (pyLower s) = true then
          upsert_user_fact sess "location".toList (movedToValue s)
            (if occurs livePhrase (pyLower s) = true then
              upsert_user_fact sess "location".toList (liveInValue s) base
            else base)
        else
          (if occurs livePhrase (pyLower s) = true then
            upsert_user_fact sess "location".toList (liveInValue s) base
          else base)) sess "profession".toList =
        factValue base sess "profession".toList := by
    by_cases hm : occurs movedPhrase (pyLower s) = true
    · rw [if_pos hm]
      rw [factValue_upsert_ne sess _ _ _ hkey_ne]
      by_cases hl : occurs livePhrase (pyLower s) = true
      · rw [if_pos hl, factValue_upsert_ne sess _ _ _ hkey_ne]
      · rw [if_neg hl]
    · rw [if_neg hm]
      by_cases hl : occurs livePhrase (pyLower s) = true
      · rw [if_pos hl, factValue_upsert_ne sess _ _ _ hkey_ne]
      · rw [if_neg hl]
  by_cases hn : occurs namePhrase (pyLower s) = true
  · rcases hnv : nameValue s with _ | nm
    · simp [extract_and_store_facts, hn, hnv] at hex
    · simp only [extract_and_store_facts, hn, hnv, if_true, hprof,
        Option.some.injEq] at hex
      rw [← hex]
      rw [step]
      exact factValue_upsert_same sess _ _ _
  · rw [Bool.not_eq_true] at hn
    simp only [extract_and_store_facts, hn, Bool.false_eq_true, if_false,
      hprof, if_true, Option.some.injEq] at hex
    rw [← hex]
    rw [step]
    exact factValue_upsert_same sess _ _ _

/-! ## Claim theorems -/

/-- C3: for every session and every non-negative limit, `get_last_messages`
returns at most `limit` messages and the returned sequence is a suffix of the
full chronological (role, content) log of that session — in particular it is
in chronological, oldest-first order. -/
theorem C3_get_last_messages_suffix_bounded (sess : Str) (limit : Nat)
    (log : List ConvRow) :
    (get_last_messages sess limit log).length ≤ limit ∧
      get_last_messages sess limit log <:+
        (log.filter (fun r => r.session_id == sess)).map
          (fun r => (r.role, r.content)) := by
  constructor
  · rw [get_last_messages_length]
    exact Nat.min_le_left _ _
  · exact get_last_messages_suffix sess limit log

/-- C4: starting from a store with at most one row per (session, key),
`upsert` followed by `get_all` for the same session yields a mapping in which
the key maps to the last-written value, and the store again holds at most one
row per (session, key) pair. -/
theorem C4_upsert_get_all (st : List FactRow) (sess k v : Str)
    (hinv : FactInv st) :
    (get_user_facts sess (upsert_user_fact sess k v st)).lookup k = some v ∧
      FactInv (upsert_user_fact sess k v st) := by
  have hinv' := factInv_upsert hinv sess k v
  constructor
  · unfold get_user_facts
    rw [pyDictOf_of_nodup (filtered_keys_nodup hinv' sess)]
    rw [lookup_filteredPairs]
    exact factValue_upsert_same sess k v st
  · exact hinv'

/-- Witness for C4 at a concrete two-row store satisfying the invariant. -/
theorem C4_upsert_get_all_witness :
    (get_user_facts SESSION_ID
        (upsert_user_fact SESSION_ID "name".toList "Riley".toList
          [⟨SESSION_ID, "name".toList, "Sam".toList⟩,
           ⟨SESSION_ID, "location".toList, "Rome".toList⟩])).lookup "name".toList =
      some "Riley".toList ∧
    FactInv (upsert_user_fact SESSION_ID "name".toList "Riley".toList
      [⟨SESSION_ID, "name".toList, "Sam".toList⟩,
       ⟨SESSION_ID, "location".toList, "Rome".toList⟩]) :=
  C4_upsert_get_all
    [⟨SESSION_ID, "name".toList, "Sam".toList⟩,
     ⟨SESSION_ID, "location".toList, "Rome".toList⟩]
    SESSION_ID "name".toList "Riley".toList (by decide)

/-- C7: when both the "i live in" and "moved to" triggers match, the final
stored location fact is the one derived from "moved to" (it is applied after
"i live in" in the fixed check order); and any utterance matching "moved to"
overwrites whatever location was previously stored. -/
theorem C7_moved_to_wins (s : Str) (st st' : List FactRow) :
    (occurs livePhrase (pyLower s) = true →
      occurs movedPhrase (pyLower s) = true →
      extract_and_store_facts SESSION_ID s st = some st' →
      factValue st' SESSION_ID "location".toList = some (movedToValue s)) ∧
    (occurs movedPhrase (pyLower s) = true →
      extract_and_store_facts SESSION_ID s st = some st' →
      factValue st' SESSION_ID "location".toList = some (movedToValue s)) := by
  refine ⟨fun _ hm hex => ?_, fun hm hex => ?_⟩
  · exact location_after_extract hm hex
  · exact location_after_extract hm hex

/-- Witness for C7: both the spec's "I moved to Denver." example over a prior
stored location "Boston", and an utterance firing both location triggers. -/
theorem C7_moved_to_wins_witness :
    factValue
        [⟨SESSION_ID, "location".toList, "Denver".toList⟩]
        SESSION_ID "location".toList =
      some (movedToValue "I moved to Denver.".toList) ∧
    factValue
        [⟨SESSION_ID, "location".toList, "Denver".toList⟩]
        SESSION_ID "location".toList =
      some (movedToValue "I live in Boston. I moved to Denver.".toList) := by
  constructor
  · exact (C7_moved_to_wins "I moved to Denver.".toList
      [⟨SESSION_ID, "location".toList, "Boston".toList⟩]
      [⟨SESSION_ID, "location".toList, "Denver".toList⟩]).2
      (by decide) (by decide)
  · exact (C7_moved_to_wins "I live in Boston. I moved to Denver.".toList []
      [⟨SESSION_ID, "location".toList, "Denver".toList⟩]).1
      (by decide) (by decide) (by decide)

/-- C9: an input whose lower-cased form contains none of the four trigger
phrases leaves the fact store unchanged. -/
theorem C9_no_trigger_no_mutation (sess input : Str) (st : List FactRow)
    (h1 : occurs namePhrase (pyLower input) = false)
    (h2 : occurs professionPhrase (pyLower input) = false)
    (h3 : occurs livePhrase (pyLower input) = false)
    (h4 : occurs movedPhrase (pyLower input) = false) :
    extract_and_store_facts sess input st = some st :=
  extract_no_trigger h1 h2 h3 h4

/-- Witness for C9 at a concrete trigger-free input and a nonempty store. -/
theorem C9_no_trigger_no_mutation_witness :
    extract_and_store_facts SESSION_ID "Hello there.".toList
        [⟨SESSION_ID, "name".toList, "Sam".toList⟩] =
      some [⟨SESSION_ID, "name".toList, "Sam".toList⟩] :=
  C9_no_trigger_no_mutation SESSION_ID "Hello there.".toList
    [⟨SESSION_ID, "name".toList, "Sam".toList⟩]
    (by decide) (by decide) (by decide) (by decide)

/-- C1 counterexample: on `"Hi, my name is Alice and I live in Boston."` the
"i live in" trigger fires on the lower-cased text, but the phrase does not
occur verbatim (the original has a capital `I`), so the stored location is
the whole utterance up to the first period — not `"Boston"` as the claim
states. -/
theorem C1_counterexample :
    extract_and_store_facts SESSION_ID
        "Hi, my name is Alice and I live in Boston.".toList [] =
      some [⟨SESSION_ID, "name".toList, "Alice".toList⟩,
            ⟨SESSION_ID, "location".toList,
              "Hi, my name is Alice and I live in Boston".toList⟩] ∧
    "Hi, my name is Alice and I live in Boston".toList ≠ "Boston".toList := by
  constructor
  · decide
  · decide

/-- C1 (amended): the example input stores exactly name = "Alice" and
location = "Hi, my name is Alice and I live in Boston" (the whole utterance
up to the first period, because "i live in" does not occur verbatim in the
original-case text). -/
theorem C1_amended_extraction :
    extract_and_store_facts SESSION_ID
        "Hi, my name is Alice and I live in Boston.".toList [] =
      some [⟨SESSION_ID, "name".toList, "Alice".toList⟩,
            ⟨SESSION_ID, "location".toList,
              "Hi, my name is Alice and I live in Boston".toList⟩] := by
  decide

/-- C5 counterexample: on the input `"my name is"` the name trigger matches
and derives an empty value, and the extractor raises (`IndexError` from
`split()[0]`, modelled as `none`) instead of storing an empty fact. -/
theorem C5_counterexample :
    occurs namePhrase (pyLower "my name is".toList) = true ∧
      extract_and_store_facts SESSION_ID "my name is".toList [] = none := by
  constructor
  · decide
  · decide

/-- C5 (amended): the extractor raises exactly when the name trigger matches
and no whitespace-delimited token follows the phrase; the three other
triggers store an empty-string fact as-is without raising. -/
theorem C5_amended_empty_values :
    (∀ (sess input : Str) (st : List FactRow),
      extract_and_store_facts sess input st = none ↔
        (occurs namePhrase (pyLower input) = true ∧ nameValue input = none)) ∧
    extract_and_store_facts SESSION_ID "i am a".toList [] =
      some [⟨SESSION_ID, "profession".toList, []⟩] ∧
    extract_and_store_facts SESSION_ID "i live in".toList [] =
      some [⟨SESSION_ID, "location".toList, []⟩] ∧
    extract_and_store_facts SESSION_ID "moved to".toList [] =
      some [⟨SESSION_ID, "location".toList, []⟩] := by
  refine ⟨extract_none_iff, by decide, by decide, by decide⟩

/-- C10: when a trigger phrase occurs in the lower-cased input but not
verbatim in the original text, the trigger still fires, yet the split on the
original-case input finds no occurrence, so the branch derives its value
from the entire original utterance. -/
theorem C10_case_mismatch_whole_utterance (s : Str) :
    (occurs namePhrase (pyLower s) = true → occurs namePhrase s = false →
      pySplit namePhrase s = [s] ∧ nameValue s = firstToken (pyStrip s)) ∧
    (occurs professionPhrase (pyLower s) = true →
      occurs professionPhrase s = false →
      pySplit professionPhrase s = [s] ∧
        professionValue s = pyFirst (pySplit ['.'] (pyStrip s))) ∧
    (occurs livePhrase (pyLower s) = true → occurs livePhrase s = false →
      pySplit livePhrase s = [s] ∧
        liveInValue s = pyFirst (pySplit ['.'] (pyStrip s))) ∧
    (occurs movedPhrase (pyLower s) = true → occurs movedPhrase s = false →
      pySplit movedPhrase s = [s] ∧
        movedToValue s = pyFirst (pySplit ['.'] (pyStrip s))) := by
  refine ⟨fun _ h => ?_, fun _ h => ?_, fun _ h => ?_, fun _ h => ?_⟩
  all_goals
    refine ⟨pySplit_of_no_occ s h, ?_⟩
  · unfold nameValue
    rw [pySplit_of_no_occ s h]
    rfl
  · unfold professionValue
    rw [pySplit_of_no_occ s h]
    rfl
  · unfold liveInValue
    rw [pySplit_of_no_occ s h]
    rfl
  · unfold movedToValue
    rw [pySplit_of_no_occ s h]
    rfl

/-- Witness for C10: all four triggers, each on an input where the phrase
appears only in mixed case. -/
theorem C10_case_mismatch_whole_utterance_witness :
    (pySplit namePhrase "My Name Is Alice.".toList =
        ["My Name Is Alice.".toList] ∧
      nameValue "My Name Is Alice.".toList =
        firstToken (pyStrip "My Name Is Alice.".toList)) ∧
    (pySplit professionPhrase "I Am A Doctor.".toList =
        ["I Am A Doctor.".toList] ∧
      professionValue "I Am A Doctor.".toList =
        pyFirst (pySplit ['.'] (pyStrip "I Am A Doctor.".toList))) ∧
    (pySplit livePhrase "I Live In Boston.".toList =
        ["I Live In Boston.".toList] ∧
      liveInValue "I Live In Boston.".toList =
        pyFirst (pySplit ['.'] (pyStrip "I Live In Boston.".toList))) ∧
    (pySplit movedPhrase "I Moved To Denver.".toList =
        ["I Moved To Denver.".toList] ∧
      movedToValue "I Moved To Denver.".toList =
        pyFirst (pySplit ['.'] (pyStrip "I Moved To Denver.".toList))) :=
  ⟨(C10_case_mismatch_whole_utterance "My Name Is Alice.".toList).1
      (by decide) (by decide),
   (C10_case_mismatch_whole_utterance "I Am A Doctor.".toList).2.1
      (by decide) (by decide),
   (C10_case_mismatch_whole_utterance "I Live In Boston.".toList).2.2.1
      (by decide) (by decide),
   (C10_case_mismatch_whole_utterance "I Moved To Denver.".toList).2.2.2
      (by decide) (by decide)⟩

/-- C6 counterexample: on `"i am a doctor ."` the code stores `"doctor "`
(with a trailing space: it strips first and then cuts at the first period),
while the claim's trim-after-cut order predicts `"doctor"`. -/
theorem C6_counterexample :
    occurs professionPhrase (pyLower "i am a doctor .".toList) = true ∧
    isAfterLastOcc professionPhrase "i am a doctor .".toList
      " doctor .".toList ∧
    professionValue "i am a doctor .".toList = "doctor ".toList ∧
    "doctor ".toList ≠ pyStrip (pyFirst (pySplit ['.'] " doctor .".toList)) := by
  exact ⟨by decide, ⟨⟨[], by decide⟩, by decide⟩, by decide, by decide⟩

/-- C6 (amended): for an input in which the phrase occurs verbatim, the value
computed by the "i am a" / "i live in" / "moved to" branch equals the text
after the last occurrence of the phrase, trimmed of surrounding whitespace
and then cut at (not including) the first following period; the profession
fact stored by a successful extraction equals that value. -/
theorem C6_amended_value_after_last_occurrence (s v : Str) (sess : Str)
    (st st' : List FactRow) :
    (occurs professionPhrase s = true →
      isAfterLastOcc professionPhrase s v →
      professionValue s = pyFirst (pySplit ['.'] (pyStrip v))) ∧
    (occurs livePhrase s = true →
      isAfterLastOcc livePhrase s v →
      liveInValue s = pyFirst (pySplit ['.'] (pyStrip v))) ∧
    (occurs movedPhrase s = true →
      isAfterLastOcc movedPhrase s v →
      movedToValue s = pyFirst (pySplit ['.'] (pyStrip v))) ∧
    (occurs professionPhrase s = true →
      isAfterLastOcc professionPhrase s v →
      extract_and_store_facts sess s st = some st' →
      factValue st' sess "profession".toList =
        some (pyFirst (pySplit ['.'] (pyStrip v)))) := by
  have hval : ∀ p : Str, p ≠ [] → Borderless p →
      occurs p s = true → isAfterLastOcc p s v →
      pyLast (pySplit p s) = v := fun p hp hb ho hv =>
    isAfterLastOcc_unique hp (isAfterLastOcc_pyLast_pySplit hp hb ho) hv
  have hprof : occurs professionPhrase s = true →
      isAfterLastOcc professionPhrase s v →
      professionValue s = pyFirst (pySplit ['.'] (pyStrip v)) := by
    intro ho hv
    unfold professionValue
    rw [hval professionPhrase (by decide) (by decide) ho hv]
  refine ⟨hprof, ?_, ?_, ?_⟩
  · intro ho hv
    unfold liveInValue
    rw [hval livePhrase (by decide) (by decide) ho hv]
  · intro ho hv
    unfold movedToValue
    rw [hval movedPhrase (by decide) (by decide) ho hv]
  · intro ho hv hex
    have hlower : occurs professionPhrase (pyLower s) = true :=
      occurs_pyLower_of_occurs (by decide) ho
    rw [profession_after_extract hlower hex, hprof ho hv]

/-- Witness for C6 (amended): an input containing all three phrases
verbatim, with the concrete after-last-occurrence texts. -/
theorem C6_amended_value_after_last_occurrence_witness :
    professionValue "i am a chef. i live in rome. moved to oslo.".toList =
      pyFirst (pySplit ['.']
        (pyStrip " chef. i live in rome. moved to oslo.".toList)) ∧
    liveInValue "i am a chef. i live in rome. moved to oslo.".toList =
      pyFirst (pySplit ['.'] (pyStrip " rome. moved to oslo.".toList)) ∧
    movedToValue "i am a chef. i live in rome. moved to oslo.".toList =
      pyFirst (pySplit ['.'] (pyStrip " oslo.".toList)) ∧
    factValue
        [⟨SESSION_ID, "profession".toList, "chef".toList⟩,
         ⟨SESSION_ID, "location".toList, "oslo".toList⟩]
        SESSION_ID "profession".toList =
      some (pyFirst (pySplit ['.']
        (pyStrip " chef. i live in rome. moved to oslo.".toList))) :=
  ⟨(C6_amended_value_after_last_occurrence
      "i am a chef. i live in rome. moved to oslo.".toList
      " chef. i live in rome. moved to oslo.".toList SESSION_ID [] []).1
      (by decide) ⟨⟨[], by decide⟩, by decide⟩,
   (C6_amended_value_after_last_occurrence
      "i am a chef. i live in rome. moved to oslo.".toList
      " rome. moved to oslo.".toList SESSION_ID [] []).2.1
      (by decide) ⟨⟨"i am a chef. ".toList, by decide⟩, by decide⟩,
   (C6_amended_value_after_last_occurrence
      "i am a chef. i live in rome. moved to oslo.".toList
      " oslo.".toList SESSION_ID [] []).2.2.1
      (by decide) ⟨⟨"i am a chef. i live in rome. ".toList, by decide⟩, by decide⟩,
   (C6_amended_value_after_last_occurrence
      "i am a chef. i live in rome. moved to oslo.".toList
      " chef. i live in rome. moved to oslo.".toList SESSION_ID []
      [⟨SESSION_ID, "profession".toList, "chef".toList⟩,
       ⟨SESSION_ID, "location".toList, "oslo".toList⟩]).2.2.2
      (by decide) ⟨⟨[], by decide⟩, by decide⟩ (by decide)⟩

/-- C8: when the completion endpoint fails, the error propagates to the
caller (the turn yields no reply), the user message appended earlier in the
turn remains in the conversation log, and no assistant message is appended:
the final log is exactly the original log plus the one user row. -/
theorem C8_endpoint_failure (endpoint : List ChatMsg → Except Str Str)
    (db : DB) (input : Str) (facts1 : List FactRow) (e : Str)
    (hex : extract_and_store_facts SESSION_ID input db.user_facts = some facts1)
    (hend : endpoint (assemble_messages
      ⟨save_message SESSION_ID "user".toList input db.conversations, facts1⟩
      input) = .error e) :
    chat_with_memory endpoint db input =
      (⟨db.conversations ++ [⟨SESSION_ID, "user".toList, input⟩], facts1⟩,
        .error (.endpointError e)) := by
  simp only [chat_with_memory, hex, hend]
  simp [save_message]

/-- Witness for C8: a concrete turn with an always-failing endpoint. -/
theorem C8_endpoint_failure_witness :
    chat_with_memory (fun _ => .error "boom".toList) ⟨[], []⟩
        "Hello.".toList =
      (⟨[⟨SESSION_ID, "user".toList, "Hello.".toList⟩], []⟩,
        .error (.endpointError "boom".toList)) :=
  C8_endpoint_failure (fun _ => .error "boom".toList) ⟨[], []⟩
    "Hello.".toList [] "boom".toList (by decide) rfl

/-- C2: after a successful extraction and the appending of the user turn,
the message list sent to the completion endpoint is: the system instruction
first (built from "Key = Value" pairs with capitalized keys, comma-joined,
when facts exist; the fixed fallback otherwise), then the most recent 5
logged messages, a chronological suffix of the session log read after the
user turn was appended (so the current utterance may appear in it), mapped
by role, then the current user utterance as the final message; and
`chat_with_memory` consults the endpoint only on that very list. -/
theorem C2_prompt_assembly (db : DB) (input : Str) (facts1 : List FactRow)
    (hex : extract_and_store_facts SESSION_ID input db.user_facts = some facts1) :
    assemble_messages
        ⟨save_message SESSION_ID "user".toList input db.conversations, facts1⟩
        input =
      ChatMsg.system (factsPrompt (get_user_facts SESSION_ID facts1)) ::
        ((get_last_messages SESSION_ID 5
            (save_message SESSION_ID "user".toList input db.conversations)).map
          (fun m => if m.1 == "user".toList then ChatMsg.human m.2
            else ChatMsg.ai m.2) ++
          [ChatMsg.human input]) ∧
    (get_last_messages SESSION_ID 5
      (save_message SESSION_ID "user".toList input db.conversations)).length ≤ 5 ∧
    get_last_messages SESSION_ID 5
        (save_message SESSION_ID "user".toList input db.conversations) <:+
      ((save_message SESSION_ID "user".toList input db.conversations).filter
        (fun r => r.session_id == SESSION_ID)).map (fun r => (r.role, r.content)) ∧
    (get_user_facts SESSION_ID facts1 = [] →
      factsPrompt (get_user_facts SESSION_ID facts1) =
        "No known facts about the user.".toList) ∧
    (get_user_facts SESSION_ID facts1 ≠ [] →
      factsPrompt (get_user_facts SESSION_ID facts1) =
        "User facts: ".toList ++ List.intercalate ", ".toList
          ((get_user_facts SESSION_ID facts1).map
            (fun kv => pyCapitalize kv.1 ++ " = ".toList ++ kv.2))) ∧
    (∀ e1 e2 : List ChatMsg → Except Str Str,
      e1 (assemble_messages
          ⟨save_message SESSION_ID "user".toList input db.conversations, facts1⟩
          input) =
        e2 (assemble_messages
          ⟨save_message SESSION_ID "user".toList input db.conversations, facts1⟩
          input) →
      chat_with_memory e1 db input = chat_with_memory e2 db input) := by
  refine ⟨?_, ?_, ?_, ?_, ?_, ?_⟩
  · simp [assemble_messages]
  · rw [get_last_messages_length]
    exact Nat.min_le_left _ _
  · exact get_last_messages_suffix _ _ _
  · intro h
    rw [h]
    rfl
  · intro h
    unfold factsPrompt
    rw [if_neg (by simpa [List.isEmpty_iff] using h)]
  · intro e1 e2 he
    simp only [chat_with_memory, hex]
    rw [he]

/-- Witness for C2 at a concrete first turn on an empty database. -/
theorem C2_prompt_assembly_witness :
    assemble_messages
        ⟨save_message SESSION_ID "user".toList "Hello.".toList [], []⟩
        "Hello.".toList =
      ChatMsg.system (factsPrompt (get_user_facts SESSION_ID [])) ::
        ((get_last_messages SESSION_ID 5
            (save_message SESSION_ID "user".toList "Hello.".toList [])).map
          (fun m => if m.1 == "user".toList then ChatMsg.human m.2
            else ChatMsg.ai m.2) ++
          [ChatMsg.human "Hello.".toList]) :=
  (C2_prompt_assembly ⟨[], []⟩ "Hello.".toList [] (by decide)).1
